import Mathlib

/-!
Verification of the CalmBot chat-bridge synchronization engine
(`cogs/chat_bridge.py`).

Strings are modelled as `List Char`; Python `str.replace` with a
single-character pattern is modelled by `replaceChar`, Python's substring
test (`in`) by `strContains`, and `str.startswith` by `List.isPrefixOf`.
Timestamps (timezone-aware datetimes in the source) are modelled as `Int`
instants; an unparseable/missing timestamp is `none`.  The non-cryptographic
Python `hash(f"{user}:{msg}")` used for same-instant deduplication is
modelled by the hashed key string itself, `user ++ ":" ++ msg`, which
preserves exactly the collisions that are visible in the key format.
-/

/-- Lowercasing of a Python string (`str.lower`), per character. -/
def toLowerL (l : List Char) : List Char := l.map Char.toLower

/-- Python substring test `pat in hay`. -/
def strContains (pat : List Char) : List Char → Bool
  | [] => pat.isEmpty
  | c :: cs => pat.isPrefixOf (c :: cs) || strContains pat cs

/-- Python `str.replace` for a single-character pattern: every occurrence of
`pat` is replaced by the segment `rep`. -/
def replaceChar (pat : Char) (rep : List Char) : List Char → List Char
  | [] => []
  | c :: cs => (if c = pat then rep else [c]) ++ replaceChar pat rep cs

/-- `ChatBridge._sanitize_for_minecraft` (chat_bridge.py lines 95-100),
modelled exactly as written: `text.replace('\n', ' ').replace('\r', '')`
followed by `.replace('\\', '\\\\').replace('"', '\"')`.  Note that in
Python the replacement string `'\"'` is identical to `'"'`, so the final
replace is the identity: double-quotes are NOT escaped. -/
def sanitize_for_minecraft (text : List Char) : List Char :=
  if text = [] then []
  else
    replaceChar '\"' ['\"']
      (replaceChar '\\' ['\\', '\\']
        (replaceChar '\r' []
          (replaceChar '\n' [' '] text)))

/-- C1: the sanitizer is claimed to escape backslashes and then double-quotes
so that the output, embedded in the destination's quoted command syntax,
contains no unescaped double-quote, and to round-trip under the matching
unescape.  Evaluating the code at the failing input `say "hi"` shows the
double-quote survives unescaped (the replacement `'\"'` equals `'"'` in
Python, so the quote-escaping step is the identity), contradicting the
adjacent source comment "Escape backslashes first, then quotes for valid
JSON"; backslashes are doubled and newlines are replaced by spaces as
claimed. -/
theorem C1_sanitize_quote_not_escaped :
    sanitize_for_minecraft "say \"hi\"".data = "say \"hi\"".data ∧
    sanitize_for_minecraft "\\".data = "\\\\".data ∧
    sanitize_for_minecraft "a\nb".data = "a b".data := by
  decide

/-- A console log line as consumed by `sync_loop` (chat_bridge.py lines
486-498): a possibly missing/unparseable timestamp, the sender
(`entry.source`), the text (`entry.contents`) and the type tag
(`entry.type`). -/
structure LogEntry where
  timestamp : Option Int
  source : List Char
  contents : List Char
  type : List Char
deriving DecidableEq

/-- The per-endpoint high-water mark
`{ "ts": datetime, "hashes": set() }` (chat_bridge.py line 52). -/
structure Watermark where
  ts : Int
  hashes : List (List Char)
deriving DecidableEq

/-- The dedup key `hash(f"{user}:{msg}")` (chat_bridge.py lines 506, 520),
modelled by the hashed string itself. -/
def hashOf (e : LogEntry) : List Char := e.source ++ ':' :: e.contents

/-- One iteration of the watermark loop (chat_bridge.py lines 515-527),
restricted to the watermark update: returns the new watermark and whether
the entry survives deduplication. -/
def dedupStep (w : Watermark) (t : Int) (e : LogEntry) : Watermark × Bool :=
  if t < w.ts then (w, false)
  else if t = w.ts then
    if hashOf e ∈ w.hashes then (w, false)
    else ({ ts := w.ts, hashes := hashOf e :: w.hashes }, true)
  else ({ ts := t, hashes := [hashOf e] }, true)

/-- The watermark loop over a parsed batch (chat_bridge.py lines 512-527):
threads the watermark through `dedupStep` and collects the surviving
entries in order. -/
def processBatch : Watermark → List (Int × LogEntry) → Watermark × List (Int × LogEntry)
  | w, [] => (w, [])
  | w, (t, e) :: rest =>
    let s := dedupStep w t e
    let r := processBatch s.1 rest
    (r.1, (if s.2 then [(t, e)] else []) ++ r.2)

/-- Stable insertion used to model Python's stable
`parsed_entries.sort(key=lambda x: x[0])`: an element is inserted after all
elements with a key less than or equal to its own. -/
def insertByTs (p : Int × LogEntry) : List (Int × LogEntry) → List (Int × LogEntry)
  | [] => [p]
  | q :: qs => if p.1 < q.1 then p :: q :: qs else q :: insertByTs p qs

/-- Stable ascending sort by timestamp (chat_bridge.py line 500). -/
def sortByTs (l : List (Int × LogEntry)) : List (Int × LogEntry) :=
  l.foldl (fun acc p => insertByTs p acc) []

/-- Timestamp parsing and sorting (chat_bridge.py lines 485-500): entries
with a missing or unparseable timestamp are dropped, the rest are sorted
ascending by timestamp (stably). -/
def parseEntries (batch : List LogEntry) : List (Int × LogEntry) :=
  sortByTs (batch.filterMap fun e => e.timestamp.map fun t => (t, e))

/-- One `sync_loop` tick for one endpoint, watermark stage (chat_bridge.py
lines 481-527): an empty update batch is skipped before any watermark work
(line 482); a first-ever batch seeds the watermark — to the latest parsed
entry's timestamp and that entry's hash, or to `now` with an empty hash set
when nothing parses — and emits nothing (lines 502-510); otherwise the
batch runs through the watermark loop.  Returns the new watermark state and
the entries that survive deduplication. -/
def tickEndpoint (now : Int) (hwm : Option Watermark) (batch : List LogEntry) :
    Option Watermark × List (Int × LogEntry) :=
  if batch = [] then (hwm, [])
  else
    let parsed := parseEntries batch
    match hwm with
    | none =>
      match parsed.getLast? with
      | some (t, e) => (some { ts := t, hashes := [hashOf e] }, [])
      | none => (some { ts := now, hashes := [] }, [])
    | some w =>
      let r := processBatch w parsed
      (some r.1, r.2)

/-- A sequence of ticks for one endpoint: each element carries the tick's
current time (used only if the watermark is still unseeded) and the polled
batch. -/
def runTicks (hwm : Option Watermark) : List (Int × List LogEntry) → Option Watermark
  | [] => hwm
  | (now, batch) :: rest => runTicks (tickEndpoint now hwm batch).1 rest

/-- Ascending-by-timestamp, the order in which the watermark loop consumes a
batch. -/
def ascendingKeys : List (Int × LogEntry) → Bool
  | [] => true
  | [_] => true
  | p :: q :: rest => decide (p.1 ≤ q.1) && ascendingKeys (q :: rest)

/-- A (timestamp, dedup-key) pair already consumed by a watermark: strictly
below the cutoff, or at the cutoff with its key recorded in the hash set. -/
def consumedKey (w : Watermark) (t : Int) (h : List Char) : Prop :=
  t < w.ts ∨ (t = w.ts ∧ h ∈ w.hashes)

theorem dedupStep_lt {w : Watermark} {t : Int} (e : LogEntry) (h : t < w.ts) :
    dedupStep w t e = (w, false) := by
  simp [dedupStep, h]

theorem dedupStep_eq_mem {w : Watermark} {t : Int} {e : LogEntry}
    (ht : t = w.ts) (hm : hashOf e ∈ w.hashes) :
    dedupStep w t e = (w, false) := by
  subst ht
  simp [dedupStep, hm]

theorem dedupStep_eq_new {w : Watermark} {t : Int} {e : LogEntry}
    (ht : t = w.ts) (hm : hashOf e ∉ w.hashes) :
    dedupStep w t e = ({ ts := w.ts, hashes := hashOf e :: w.hashes }, true) := by
  subst ht
  simp [dedupStep, hm]

theorem dedupStep_gt {w : Watermark} {t : Int} {e : LogEntry} (ht : w.ts < t) :
    dedupStep w t e = ({ ts := t, hashes := [hashOf e] }, true) := by
  have h1 : ¬ t < w.ts := by omega
  have h2 : ¬ t = w.ts := by omega
  simp [dedupStep, h1, h2]

theorem dedupStep_consumed {w : Watermark} {t : Int} {e : LogEntry}
    (hc : consumedKey w t (hashOf e)) :
    dedupStep w t e = (w, false) := by
  rcases hc with h | ⟨h1, h2⟩
  · exact dedupStep_lt e h
  · exact dedupStep_eq_mem h1 h2

theorem dedupStep_acc_not_consumed {w : Watermark} {t : Int} {e : LogEntry}
    (hacc : (dedupStep w t e).2 = true) :
    ¬ consumedKey w t (hashOf e) := by
  intro hc
  simp [dedupStep_consumed hc] at hacc

theorem consumedKey_dedupStep {w : Watermark} {t₁ : Int} {h₁ : List Char}
    (t : Int) (e : LogEntry) (hc : consumedKey w t₁ h₁) :
    consumedKey (dedupStep w t e).1 t₁ h₁ := by
  by_cases hlt : t < w.ts
  · rw [dedupStep_lt e hlt]; exact hc
  · by_cases heq : t = w.ts
    · by_cases hmem : hashOf e ∈ w.hashes
      · rw [dedupStep_eq_mem heq hmem]; exact hc
      · rw [dedupStep_eq_new heq hmem]
        rcases hc with h | ⟨ha, hb⟩
        · exact Or.inl h
        · exact Or.inr ⟨ha, List.mem_cons_of_mem _ hb⟩
    · have hgt : w.ts < t := by omega
      rw [dedupStep_gt hgt]
      rcases hc with h | ⟨ha, hb⟩
      · left; dsimp; omega
      · left; dsimp; omega

theorem consumedKey_after_step (w : Watermark) (t : Int) (e : LogEntry) :
    consumedKey (dedupStep w t e).1 t (hashOf e) := by
  by_cases hlt : t < w.ts
  · rw [dedupStep_lt e hlt]; exact Or.inl hlt
  · by_cases heq : t = w.ts
    · by_cases hmem : hashOf e ∈ w.hashes
      · rw [dedupStep_eq_mem heq hmem]; exact Or.inr ⟨heq, hmem⟩
      · rw [dedupStep_eq_new heq hmem]
        exact Or.inr ⟨heq, List.mem_cons_self _ _⟩
    · have hgt : w.ts < t := by omega
      rw [dedupStep_gt hgt]
      exact Or.inr ⟨rfl, List.mem_cons_self _ _⟩

theorem processBatch_consumed_mono {w : Watermark} {t₁ : Int} {h₁ : List Char}
    (l : List (Int × LogEntry)) (hc : consumedKey w t₁ h₁) :
    consumedKey (processBatch w l).1 t₁ h₁ := by
  induction l generalizing w with
  | nil => exact hc
  | cons p rest ih =>
    obtain ⟨t, e⟩ := p
    simp only [processBatch]
    exact ih (consumedKey_dedupStep t e hc)

theorem processBatch_all_consumed (w : Watermark) (l : List (Int × LogEntry)) :
    ∀ p ∈ l, consumedKey (processBatch w l).1 p.1 (hashOf p.2) := by
  induction l generalizing w with
  | nil => intro p hp; cases hp
  | cons q rest ih =>
    intro p hp
    obtain ⟨t, e⟩ := q
    simp only [processBatch]
    rcases List.mem_cons.mp hp with rfl | hmem
    · exact processBatch_consumed_mono rest (consumedKey_after_step w t e)
    · exact ih _ p hmem

theorem processBatch_of_consumed {w : Watermark} {l : List (Int × LogEntry)}
    (hall : ∀ p ∈ l, consumedKey w p.1 (hashOf p.2)) :
    processBatch w l = (w, []) := by
  induction l with
  | nil => rfl
  | cons q rest ih =>
    obtain ⟨t, e⟩ := q
    have hstep : dedupStep w t e = (w, false) :=
      dedupStep_consumed (hall (t, e) (List.mem_cons_self _ _))
    have hrest : processBatch w rest = (w, []) :=
      ih fun p hp => hall p (List.mem_cons_of_mem _ hp)
    simp [processBatch, hstep, hrest]

theorem dedupStep_ts_le (w : Watermark) (t : Int) (e : LogEntry) :
    w.ts ≤ (dedupStep w t e).1.ts := by
  by_cases hlt : t < w.ts
  · rw [dedupStep_lt e hlt]
  · by_cases heq : t = w.ts
    · by_cases hmem : hashOf e ∈ w.hashes
      · rw [dedupStep_eq_mem heq hmem]
      · rw [dedupStep_eq_new heq hmem]
    · have hgt : w.ts < t := by omega
      rw [dedupStep_gt hgt]; dsimp; omega

theorem processBatch_ts_le (w : Watermark) (l : List (Int × LogEntry)) :
    w.ts ≤ (processBatch w l).1.ts := by
  induction l generalizing w with
  | nil => exact le_refl _
  | cons q rest ih =>
    obtain ⟨t, e⟩ := q
    simp only [processBatch]
    exact le_trans (dedupStep_ts_le w t e) (ih _)

/-- Number of deduplicated-output entries carrying a given (timestamp,
dedup-key) pair. -/
def countKey (t : Int) (h : List Char) (l : List (Int × LogEntry)) : Nat :=
  l.countP fun p => decide (p.1 = t) && decide (hashOf p.2 = h)

/-- Number of deduplicated-output entries with a given timestamp, sender and
content. -/
def countMsg (t : Int) (s c : List Char) (l : List (Int × LogEntry)) : Nat :=
  l.countP fun p => decide (p.1 = t) && decide (p.2.source = s) && decide (p.2.contents = c)

theorem countMsg_le_countKey (t : Int) (s c : List Char) (l : List (Int × LogEntry)) :
    countMsg t s c l ≤ countKey t (s ++ ':' :: c) l := by
  apply List.countP_mono_left
  intro p _ hpred
  simp only [Bool.and_eq_true, decide_eq_true_eq] at hpred ⊢
  obtain ⟨⟨h1, h2⟩, h3⟩ := hpred
  refine ⟨h1, ?_⟩
  simp [hashOf, h2, h3]

theorem countKey_zero_of_consumed {w : Watermark} {t : Int} {h : List Char}
    (l : List (Int × LogEntry)) (hc : consumedKey w t h) :
    countKey t h (processBatch w l).2 = 0 := by
  induction l generalizing w with
  | nil => rfl
  | cons q rest ih =>
    obtain ⟨t₀, e⟩ := q
    have hrest : countKey t h (processBatch (dedupStep w t₀ e).1 rest).2 = 0 :=
      ih (consumedKey_dedupStep t₀ e hc)
    simp only [processBatch]
    by_cases hb : (dedupStep w t₀ e).2 = true
    · have hne : (decide ((t₀, e).1 = t) && decide (hashOf (t₀, e).2 = h)) = false := by
        by_cases ht : t₀ = t
        · by_cases hh : hashOf e = h
          · exfalso
            subst ht; subst hh
            exact dedupStep_acc_not_consumed hb hc
          · simp [hh]
        · simp [ht]
      simp [countKey, hb, List.countP_append, hne] at hrest ⊢
      exact hrest
    · have hb' : (dedupStep w t₀ e).2 = false := by
        simpa using hb
      simpa [countKey, hb'] using hrest

theorem countKey_le_one (w : Watermark) (l : List (Int × LogEntry))
    (t : Int) (h : List Char) :
    countKey t h (processBatch w l).2 ≤ 1 := by
  induction l generalizing w with
  | nil => simp [processBatch, countKey]
  | cons q rest ih =>
    obtain ⟨t₀, e⟩ := q
    simp only [processBatch]
    by_cases hb : (dedupStep w t₀ e).2 = true
    · by_cases hkey : t₀ = t ∧ hashOf e = h
      · obtain ⟨rfl, rfl⟩ := hkey
        have hzero : countKey t₀ (hashOf e) (processBatch (dedupStep w t₀ e).1 rest).2 = 0 :=
          countKey_zero_of_consumed rest (consumedKey_after_step w t₀ e)
        simp [countKey, hb, List.countP_append] at hzero ⊢
        exact hzero
      · have hne : (decide ((t₀, e).1 = t) && decide (hashOf (t₀, e).2 = h)) = false := by
          by_cases ht : t₀ = t
          · by_cases hh : hashOf e = h
            · exact absurd ⟨ht, hh⟩ hkey
            · simp [hh]
          · simp [ht]
        have := ih (dedupStep w t₀ e).1
        simp [countKey, hb, List.countP_append, hne] at this ⊢
        exact this
    · have hb' : (dedupStep w t₀ e).2 = false := by
        simpa using hb
      have := ih (dedupStep w t₀ e).1
      simpa [countKey, hb'] using this

theorem mem_insertByTs {x p : Int × LogEntry} {l : List (Int × LogEntry)} :
    x ∈ insertByTs p l ↔ x = p ∨ x ∈ l := by
  induction l with
  | nil => simp [insertByTs]
  | cons q qs ih =>
    simp only [insertByTs]
    by_cases hlt : p.1 < q.1
    · rw [if_pos hlt]
      simp [or_comm, or_assoc, or_left_comm]
    · rw [if_neg hlt]
      simp [ih]
      tauto

theorem pairwise_insertByTs {p : Int × LogEntry} {l : List (Int × LogEntry)}
    (h : List.Pairwise (fun a b : Int × LogEntry => a.1 ≤ b.1) l) :
    List.Pairwise (fun a b : Int × LogEntry => a.1 ≤ b.1) (insertByTs p l) := by
  induction l with
  | nil => simp [insertByTs]
  | cons q qs ih =>
    obtain ⟨hq, hqs⟩ := List.pairwise_cons.mp h
    simp only [insertByTs]
    by_cases hlt : p.1 < q.1
    · rw [if_pos hlt]
      refine List.pairwise_cons.mpr ⟨?_, h⟩
      intro r hr
      rcases List.mem_cons.mp hr with rfl | hr'
      · omega
      · have := hq r hr'
        omega
    · rw [if_neg hlt]
      refine List.pairwise_cons.mpr ⟨?_, ih hqs⟩
      intro r hr
      rcases mem_insertByTs.mp hr with rfl | hr'
      · omega
      · exact hq r hr'

theorem sortByTs_pairwise (l : List (Int × LogEntry)) :
    List.Pairwise (fun a b : Int × LogEntry => a.1 ≤ b.1) (sortByTs l) := by
  have key : ∀ (l acc : List (Int × LogEntry)),
      List.Pairwise (fun a b : Int × LogEntry => a.1 ≤ b.1) acc →
      List.Pairwise (fun a b : Int × LogEntry => a.1 ≤ b.1)
        (l.foldl (fun acc p => insertByTs p acc) acc) := by
    intro l
    induction l with
    | nil => intro acc h; exact h
    | cons p rest ih =>
      intro acc h
      exact ih _ (pairwise_insertByTs h)
  exact key l [] List.Pairwise.nil

theorem last_max_of_pairwise :
    ∀ {l : List (Int × LogEntry)} {m : Int × LogEntry},
      List.Pairwise (fun a b : Int × LogEntry => a.1 ≤ b.1) l →
      l.getLast? = some m → ∀ p ∈ l, p.1 ≤ m.1 := by
  intro l
  induction l with
  | nil => intro m _ hlast; cases hlast
  | cons q qs ih =>
    intro m hpw hlast p hp
    cases qs with
    | nil =>
      simp at hlast
      subst hlast
      simp at hp
      subst hp
      exact le_refl _
    | cons r rs =>
      rw [List.getLast?_cons_cons] at hlast
      obtain ⟨hq, hqs⟩ := List.pairwise_cons.mp hpw
      rcases List.mem_cons.mp hp with rfl | hp'
      · have hr : r.1 ≤ m.1 := ih hqs hlast r (List.mem_cons_self _ _)
        have := hq r (List.mem_cons_self _ _)
        omega
      · exact ih hqs hlast p hp'

/-- C2 counterexample: the final clause of the claim — "two entries with
identical timestamp but different content are both accepted" — fails on the
code.  The dedup key is the single string `f"{sender}:{content}"`, so the
two fresh same-instant entries (sender `a`, content `b:c`) and (sender
`a:b`, content `c`) have different contents yet identical keys, and only
the first is accepted. -/
theorem C2_same_instant_collision :
    "b:c".data ≠ "c".data ∧
    (processBatch { ts := 0, hashes := [] }
        [(1, { timestamp := some 1, source := "a".data, contents := "b:c".data,
               type := "chat".data }),
         (1, { timestamp := some 1, source := "a:b".data, contents := "c".data,
               type := "chat".data })]).2
      = [(1, { timestamp := some 1, source := "a".data, contents := "b:c".data,
               type := "chat".data })] := by
  decide

/-- C2 (amended): for an initialized watermark over a batch in ascending
timestamp order, each entry strictly before the watermark is discarded; at
the watermark it is discarded exactly when its (sender, content) key is
already recorded, otherwise recorded and accepted; strictly after, the
watermark advances, the hash set resets to that entry's key, and it is
accepted.  Consequently entries with identical timestamp, sender and
content are accepted at most once, and two fresh same-instant entries from
the SAME sender with different content are both accepted (for different
senders the keys `sender:content` may coincide, see the counterexample). -/
theorem C2_dedup_behavior :
    (∀ (w : Watermark) (t : Int) (e : LogEntry), t < w.ts →
        dedupStep w t e = (w, false)) ∧
    (∀ (w : Watermark) (t : Int) (e : LogEntry), t = w.ts → hashOf e ∈ w.hashes →
        dedupStep w t e = (w, false)) ∧
    (∀ (w : Watermark) (t : Int) (e : LogEntry), t = w.ts → hashOf e ∉ w.hashes →
        dedupStep w t e = ({ ts := w.ts, hashes := hashOf e :: w.hashes }, true)) ∧
    (∀ (w : Watermark) (t : Int) (e : LogEntry), w.ts < t →
        dedupStep w t e = ({ ts := t, hashes := [hashOf e] }, true)) ∧
    (∀ (w : Watermark) (l : List (Int × LogEntry)), ascendingKeys l = true →
        ∀ (t : Int) (s c : List Char), countMsg t s c (processBatch w l).2 ≤ 1) ∧
    (∀ (w : Watermark) (t : Int) (s c₁ c₂ ty₁ ty₂ : List Char) (ts₁ ts₂ : Option Int),
        w.ts < t → c₁ ≠ c₂ →
        (processBatch w
            [(t, { timestamp := ts₁, source := s, contents := c₁, type := ty₁ }),
             (t, { timestamp := ts₂, source := s, contents := c₂, type := ty₂ })]).2
          = [(t, { timestamp := ts₁, source := s, contents := c₁, type := ty₁ }),
             (t, { timestamp := ts₂, source := s, contents := c₂, type := ty₂ })]) := by
  refine ⟨?_, ?_, ?_, ?_, ?_, ?_⟩
  · intro w t e h
    exact dedupStep_lt e h
  · intro w t e ht hm
    exact dedupStep_eq_mem ht hm
  · intro w t e ht hm
    exact dedupStep_eq_new ht hm
  · intro w t e ht
    exact dedupStep_gt ht
  · intro w l _ t s c
    exact le_trans (countMsg_le_countKey t s c _) (countKey_le_one w l t _)
  · intro w t s c₁ c₂ ty₁ ty₂ ts₁ ts₂ hlt hne
    have hmem : hashOf { timestamp := ts₂, source := s, contents := c₂, type := ty₂ }
        ∉ [hashOf { timestamp := ts₁, source := s, contents := c₁, type := ty₁ }] := by
      simp only [hashOf, List.mem_singleton]
      intro hcontra
      have h1 : ':' :: c₂ = ':' :: c₁ := List.append_cancel_left hcontra
      have h2 : c₂ = c₁ := by injection h1
      exact hne h2.symm
    have hstep1 := dedupStep_gt
      (w := w) (t := t) (e := { timestamp := ts₁, source := s, contents := c₁, type := ty₁ }) hlt
    have hstep2 := dedupStep_eq_new
      (w := { ts := t, hashes := [hashOf { timestamp := ts₁, source := s, contents := c₁, type := ty₁ }] })
      (t := t) (e := { timestamp := ts₂, source := s, contents := c₂, type := ty₂ }) rfl hmem
    simp [processBatch, hstep1, hstep2]

/-- Witness for C2: the four per-entry shapes, the at-most-once bound and
the same-sender clause at concrete inputs. -/
theorem C2_dedup_behavior_witness :
    dedupStep { ts := 5, hashes := [] } 3
        { timestamp := some 3, source := "Alice".data, contents := "hi".data,
          type := "chat".data }
      = ({ ts := 5, hashes := [] }, false) ∧
    dedupStep { ts := 5, hashes := ["Alice:hi".data] } 5
        { timestamp := some 5, source := "Alice".data, contents := "hi".data,
          type := "chat".data }
      = ({ ts := 5, hashes := ["Alice:hi".data] }, false) ∧
    dedupStep { ts := 5, hashes := ["Bob:yo".data] } 5
        { timestamp := some 5, source := "Alice".data, contents := "hi".data,
          type := "chat".data }
      = ({ ts := 5, hashes := ["Alice:hi".data, "Bob:yo".data] }, true) ∧
    dedupStep { ts := 5, hashes := ["Bob:yo".data] } 9
        { timestamp := some 9, source := "Alice".data, contents := "hi".data,
          type := "chat".data }
      = ({ ts := 9, hashes := ["Alice:hi".data] }, true) ∧
    countMsg 5 "Alice".data "hi".data
        (processBatch { ts := 4, hashes := [] }
          [(5, { timestamp := some 5, source := "Alice".data, contents := "hi".data,
                 type := "chat".data }),
           (5, { timestamp := some 5, source := "Alice".data, contents := "hi".data,
                 type := "chat".data })]).2 ≤ 1 ∧
    (processBatch { ts := 4, hashes := [] }
        [(5, { timestamp := some 5, source := "Alice".data, contents := "hi".data,
               type := "chat".data }),
         (5, { timestamp := some 5, source := "Alice".data, contents := "yo".data,
               type := "chat".data })]).2
      = [(5, { timestamp := some 5, source := "Alice".data, contents := "hi".data,
               type := "chat".data }),
         (5, { timestamp := some 5, source := "Alice".data, contents := "yo".data,
               type := "chat".data })] := by
  refine ⟨?_, ?_, ?_, ?_, ?_, ?_⟩
  · exact C2_dedup_behavior.1 _ 3 _ (by decide)
  · exact C2_dedup_behavior.2.1 _ 5 _ rfl (by decide)
  · exact C2_dedup_behavior.2.2.1 _ 5 _ rfl (by decide)
  · exact C2_dedup_behavior.2.2.2.1 _ 9 _ (by decide)
  · exact C2_dedup_behavior.2.2.2.2.1 _ _ (by decide) 5 _ _
  · exact C2_dedup_behavior.2.2.2.2.2 _ 5 _ _ _ _ _ _ _ (by decide) (by decide)

/-- Order on optional watermark states by timestamp: an unseeded state is
below everything, and a seeded state never reverts to unseeded. -/
def wmLE : Option Watermark → Option Watermark → Prop
  | none, _ => True
  | some _, none => False
  | some a, some b => a.ts ≤ b.ts

theorem wmLE_trans {a b c : Option Watermark} (h₁ : wmLE a b) (h₂ : wmLE b c) :
    wmLE a c := by
  match a, b, c with
  | none, _, _ => trivial
  | some x, none, _ => exact absurd h₁ (by simp [wmLE])
  | some x, some y, none => exact absurd h₂ (by simp [wmLE])
  | some x, some y, some z => exact le_trans h₁ h₂

theorem tick_wmLE (now : Int) (hwm : Option Watermark) (batch : List LogEntry) :
    wmLE hwm (tickEndpoint now hwm batch).1 := by
  by_cases hb : batch = []
  · simp only [tickEndpoint, if_pos hb]
    cases hwm with
    | none => trivial
    | some w => exact le_refl _
  · simp only [tickEndpoint, if_neg hb]
    cases hwm with
    | none =>
      cases hp : (parseEntries batch).getLast? with
      | none => trivial
      | some p =>
        obtain ⟨t, e⟩ := p
        simp [hp]
        trivial
    | some w =>
      exact processBatch_ts_le w (parseEntries batch)

theorem runTicks_wmLE (hwm : Option Watermark) (ticks : List (Int × List LogEntry)) :
    wmLE hwm (runTicks hwm ticks) := by
  induction ticks generalizing hwm with
  | nil =>
    cases hwm with
    | none => trivial
    | some w => exact le_refl _
  | cons q rest ih =>
    obtain ⟨now, batch⟩ := q
    exact wmLE_trans (tick_wmLE now hwm batch) (ih _)

/-- C3: for any endpoint state, processing any batch — empty, unordered or
malformed — through one tick never decreases the watermark timestamp, and
across any sequence of ticks the watermark timestamp is monotonically
non-decreasing (a seeded watermark also never becomes unseeded). -/
theorem C3_watermark_monotone :
    (∀ (now : Int) (hwm : Option Watermark) (batch : List LogEntry),
        wmLE hwm (tickEndpoint now hwm batch).1) ∧
    (∀ (hwm : Option Watermark) (ticks : List (Int × List LogEntry)),
        wmLE hwm (runTicks hwm ticks)) :=
  ⟨tick_wmLE, runTicks_wmLE⟩

/-- C4 counterexample: the claim includes the endpoint's first-ever batch,
but a first batch containing two distinct entries at the same (maximal)
timestamp seeds the watermark with only the LAST entry's hash; re-feeding
the exact same batch on the next tick then re-accepts the other entry, so
the second pass yields one newly-accepted entry, not zero. -/
theorem C4_first_batch_not_idempotent :
    (tickEndpoint 100
        (tickEndpoint 100 none
          [{ timestamp := some 5, source := "a".data, contents := "x".data,
             type := "chat".data },
           { timestamp := some 5, source := "b".data, contents := "y".data,
             type := "chat".data }]).1
        [{ timestamp := some 5, source := "a".data, contents := "x".data,
           type := "chat".data },
         { timestamp := some 5, source := "b".data, contents := "y".data,
           type := "chat".data }]).2.length = 1 := by
  decide

/-- C4 (amended): once the endpoint's watermark is initialized, processing a
batch and then feeding the exact same batch to the next tick yields zero
newly-accepted entries; after a first-ever batch (which only seeds the
watermark) a same-instant entry other than the seeded latest one can be
re-accepted, as the counterexample shows. -/
theorem C4_idempotent_after_init :
    ∀ (now₁ now₂ : Int) (w : Watermark) (batch : List LogEntry),
      (tickEndpoint now₂ (tickEndpoint now₁ (some w) batch).1 batch).2 = [] := by
  intro now₁ now₂ w batch
  by_cases hb : batch = []
  · simp [tickEndpoint, hb]
  · have h₁ : (tickEndpoint now₁ (some w) batch).1
        = some (processBatch w (parseEntries batch)).1 := by
      simp [tickEndpoint, hb]
    rw [h₁]
    simp only [tickEndpoint, if_neg hb]
    have hall := processBatch_all_consumed w (parseEntries batch)
    rw [processBatch_of_consumed hall]

/-- C5: for an endpoint's first-ever non-empty batch, the watermark is
seeded to the latest parseable entry's timestamp (the last element of the
sorted parse, maximal among all parsed entries) with the hash set holding
exactly that entry's (sender, content) key, and nothing is emitted that
tick; if no entry of the batch parses, the watermark is seeded to the
current time with an empty hash set, again emitting nothing. -/
theorem C5_first_batch_seeding :
    ∀ (now : Int) (batch : List LogEntry), batch ≠ [] →
      (parseEntries batch = [] →
          tickEndpoint now none batch = (some { ts := now, hashes := [] }, [])) ∧
      (∀ (t : Int) (e : LogEntry), (parseEntries batch).getLast? = some (t, e) →
          tickEndpoint now none batch = (some { ts := t, hashes := [hashOf e] }, []) ∧
          ∀ p ∈ parseEntries batch, p.1 ≤ t) := by
  intro now batch hb
  constructor
  · intro hpe
    simp [tickEndpoint, hb, hpe]
  · intro t e hlast
    constructor
    · simp [tickEndpoint, hb, hlast]
    · intro p hp
      have hpw : List.Pairwise (fun a b : Int × LogEntry => a.1 ≤ b.1) (parseEntries batch) :=
        sortByTs_pairwise _
      exact last_max_of_pairwise hpw hlast p hp

/-- Witness for C5: a singleton first batch seeds to its entry's timestamp
and hash and emits nothing; a first batch whose only entry lacks a
timestamp seeds to `now` with an empty hash set. -/
theorem C5_first_batch_seeding_witness :
    tickEndpoint 50 none
        [{ timestamp := some 7, source := "Bob".data, contents := "hi".data,
           type := "chat".data }]
      = (some { ts := 7, hashes := ["Bob:hi".data] }, []) ∧
    tickEndpoint 50 none
        [{ timestamp := none, source := "Bob".data, contents := "hi".data,
           type := "chat".data }]
      = (some { ts := 50, hashes := [] }, []) := by
  constructor
  · exact ((C5_first_batch_seeding 50
      [{ timestamp := some 7, source := "Bob".data, contents := "hi".data,
         type := "chat".data }] (by decide)).2 7
      { timestamp := some 7, source := "Bob".data, contents := "hi".data,
        type := "chat".data } (by decide)).1
  · exact (C5_first_batch_seeding 50
      [{ timestamp := none, source := "Bob".data, contents := "hi".data,
         type := "chat".data }] (by decide)).1 (by decide)

/-- Per-endpoint connection health as handled in `sync_loop` step 2
(chat_bridge.py lines 451-476): the consecutive-failure counter
(`self.failure_counts`) and whether a cached authentication session for the
endpoint is present (`inst.instance_id in self.amp_bridge._sessions`). -/
structure ConnState where
  failures : Nat
  hasSession : Bool
deriving DecidableEq

/-- One tick of the failure/heal handling for one endpoint (chat_bridge.py
lines 451-476), for an endpoint that is present in the instance registry
(as every polled endpoint is within a tick: the poll list is built from
`self.instances` at the start of the same tick).  On a successful poll the
counter is reset to zero; on a failed poll it is incremented, and when it
reaches 5 the cached session is discarded (forcing re-login) and the
counter is reset to zero.  Returns the new state and whether a heal was
attempted this tick. -/
def pollTick (success : Bool) (st : ConnState) : ConnState × Bool :=
  if success then ({ st with failures := 0 }, false)
  else
    let count := st.failures + 1
    if 5 ≤ count then ({ failures := 0, hasSession := false }, true)
    else ({ st with failures := count }, false)

/-- C6: a successful poll resets the failure counter to zero; a failed poll
increments it by one; when the counter reaches the threshold 5, the cached
session state is discarded and the counter is reset to zero; and because
the counter is reset on every heal, a heal is never attempted on the
immediately following tick — it is edge-triggered per threshold
crossing. -/
theorem C6_failure_heal :
    (∀ st : ConnState, pollTick true st = ({ st with failures := 0 }, false)) ∧
    (∀ st : ConnState, st.failures + 1 < 5 →
        pollTick false st = ({ st with failures := st.failures + 1 }, false)) ∧
    (∀ st : ConnState, 5 ≤ st.failures + 1 →
        pollTick false st = ({ failures := 0, hasSession := false }, true)) ∧
    (∀ (st : ConnState) (b b' : Bool), (pollTick b st).2 = true →
        (pollTick b' (pollTick b st).1).2 = false) := by
  refine ⟨?_, ?_, ?_, ?_⟩
  · intro st
    rfl
  · intro st h
    simp [pollTick]
    omega
  · intro st h
    simp [pollTick, h]
  · intro st b b' hheal
    cases b with
    | false =>
      by_cases h5 : 5 ≤ st.failures + 1
      · have hstep : pollTick false st = ({ failures := 0, hasSession := false }, true) := by
          simp [pollTick, h5]
        rw [hstep]
        cases b' with
        | false => simp [pollTick]
        | true => rfl
      · have hstep : pollTick false st = ({ st with failures := st.failures + 1 }, false) := by
          simp [pollTick]
          omega
        rw [hstep] at hheal
        cases hheal
    | true =>
      cases hheal

/-- Witness for C6: the heal fires exactly at the fifth consecutive failure
and cannot fire again on the next tick. -/
theorem C6_failure_heal_witness :
    pollTick true { failures := 3, hasSession := true }
      = ({ failures := 0, hasSession := true }, false) ∧
    pollTick false { failures := 3, hasSession := true }
      = ({ failures := 4, hasSession := true }, false) ∧
    pollTick false { failures := 4, hasSession := true }
      = ({ failures := 0, hasSession := false }, true) ∧
    (pollTick false (pollTick false { failures := 4, hasSession := true }).1).2 = false := by
  refine ⟨?_, ?_, ?_, ?_⟩
  · exact C6_failure_heal.1 { failures := 3, hasSession := true }
  · exact C6_failure_heal.2.1 { failures := 3, hasSession := true } (by decide)
  · exact C6_failure_heal.2.2.1 { failures := 4, hasSession := true } (by decide)
  · exact C6_failure_heal.2.2.2 { failures := 4, hasSession := true } false false (by decide)

/-- The fixed system-account deny-list (chat_bridge.py line 551). -/
def systemUsers : List (List Char) :=
  ["server".data, "console".data, "rcon".data, "tip".data, "ftbteambases".data,
   "dimdungeons".data, "compactmachines".data, "storage".data, "twilight".data,
   "the".data, "overworld".data, "nether".data, "end".data,
   "irons_spellbooks".data, "ftb".data, "irregular_implements".data,
   "spatial".data]

/-- Scanner for the tail `.+?> .+` of the echo regex: looks for `> ` preceded
by at least one non-newline character (already consumed by the caller) and
followed by a non-newline character, consuming non-newline characters while
searching. -/
def echoScan : List Char → Bool
  | [] => false
  | '>' :: ' ' :: d :: rest => (d != '\n') || echoScan (' ' :: d :: rest)
  | c :: cs => (c != '\n') && echoScan cs

/-- The echo filter regex `re.match(r"^\\[.+?\\] <.+?> .+", msg)`
(chat_bridge.py line 543), modelled as written.  In a RAW Python string
`\\` is a literal backslash, so the pattern is: a literal backslash, one
character of the class `[.+?\]`, the literal ` <`, one-or-more non-newline
characters, `> `, one-or-more non-newline characters — NOT the intended
`[...] <...> ...` broadcast shape. -/
def brokenEchoRegex (msg : List Char) : Bool :=
  match msg with
  | '\\' :: c :: ' ' :: '<' :: rest =>
    (c == '.' || c == '+' || c == '?' || c == '\\') &&
    (match rest with
     | [] => false
     | d :: ds => (d != '\n') && echoScan ds)
  | _ => false

/-- `"chat" in str(entry.type).lower()` (chat_bridge.py lines 540, 542):
the entry is tagged as chat-type. -/
def chatTagged (e : LogEntry) : Bool := strContains "chat".data (toLowerL e.type)

/-- The classifier/filter chain applied to each watermark-accepted entry
(chat_bridge.py lines 539-552), in source order with short-circuiting:
non-empty sender and content; chat-type tag; not matching the (broken) echo
regex; not starting with `[` while containing `]`; sender length within
1..32; not performance-monitor noise (`tps` and `ms/tick`); not a whisper
marker (`private_for_`); sender not in the system-account deny-list. -/
def passesFilters (e : LogEntry) : Bool :=
  !(decide (e.source = []) || decide (e.contents = [])) &&
  chatTagged e &&
  !(brokenEchoRegex e.contents) &&
  !(List.isPrefixOf "[".data e.contents && strContains "]".data e.contents) &&
  !(decide (e.source.length < 1) || decide (32 < e.source.length)) &&
  !(strContains "tps".data (toLowerL e.contents) &&
    strContains "ms/tick".data (toLowerL e.contents)) &&
  !(List.isPrefixOf "private_for_".data (toLowerL e.contents)) &&
  !(decide (toLowerL e.source ∈ systemUsers))

/-- Content in the engine's own broadcast echo shape
`[Source] <Sender> text` (chat_bridge.py lines 625, 627). -/
def echoFormat (msg : List Char) : Prop :=
  ∃ src u m : List Char,
    msg = '[' :: (src ++ ']' :: ' ' :: '<' :: (u ++ '>' :: ' ' :: m))

theorem strContains_singleton (ch : Char) (a r : List Char) :
    strContains [ch] (a ++ ch :: r) = true := by
  induction a with
  | nil => simp [strContains, List.isPrefixOf]
  | cons c a₁ ih => simp [strContains, ih]

/-- C7: the classifier rejects an entry when any of the following holds: its
lowercased sender is on the system-account deny-list (`console`, `server`,
…) even if the entry is chat-typed; its content matches the engine's own
broadcast echo shape `[Source] <Sender> text`; its sender length is 0 or
greater than 32; it is not tagged as chat-type (`"chat"` not contained in
the lowercased type tag, the code's notion of chat tagging); or its sender
or content is empty. -/
theorem C7_filter_rejections :
    ∀ e : LogEntry,
      (toLowerL e.source ∈ systemUsers ∨
       echoFormat e.contents ∨
       e.source.length = 0 ∨ 32 < e.source.length ∨
       chatTagged e = false ∨
       e.source = [] ∨ e.contents = []) →
      passesFilters e = false := by
  intro e hdisj
  by_contra hq
  have hpass : passesFilters e = true := by
    cases hpf : passesFilters e
    · exact absurd hpf hq
    · rfl
  simp only [passesFilters, Bool.and_eq_true, Bool.not_eq_true',
    Bool.or_eq_false_iff, decide_eq_false_iff_not, Bool.and_eq_false_iff] at hpass
  obtain ⟨⟨⟨⟨⟨⟨⟨⟨hs, hc⟩, htag⟩, hregex⟩, hbracket⟩, hlen1, hlen2⟩, htps⟩, hpriv⟩, hsys⟩ :=
    hpass
  rcases hdisj with h | h | h | h | h | h | h
  · exact hsys h
  · obtain ⟨src, u, m, hfmt⟩ := h
    rcases hbracket with hb | hb
    · rw [hfmt] at hb
      simp [List.isPrefixOf] at hb
    · rw [hfmt] at hb
      have h₁ := strContains_singleton ']' ('[' :: src)
        (' ' :: '<' :: (u ++ '>' :: ' ' :: m))
      rw [List.cons_append] at h₁
      rw [h₁] at hb
      cases hb
  · exact hlen1 (by omega)
  · exact hlen2 h
  · rw [h] at htag
    cases htag
  · exact hs h
  · exact hc h

/-- Witness for C7: a chat-typed line from `Console` is rejected, a line in
the engine's broadcast echo shape is rejected, and a 33-character sender is
rejected. -/
theorem C7_filter_rejections_witness :
    passesFilters
        { timestamp := some 0, source := "Console".data, contents := "hello".data,
          type := "chat".data } = false ∧
    passesFilters
        { timestamp := some 0, source := "Alice".data,
          contents := "[Alias] <Name> hi".data, type := "chat".data } = false ∧
    passesFilters
        { timestamp := some 0, source := "AAAAAAAAAAAAAAAAAAAAAAAAAAAAAAAAA".data,
          contents := "hello".data, type := "chat".data } = false := by
  refine ⟨?_, ?_, ?_⟩
  · exact C7_filter_rejections _ (Or.inl (by decide))
  · exact C7_filter_rejections _
      (Or.inr (Or.inl ⟨"Alias".data, "Name".data, "hi".data, by decide⟩))
  · exact C7_filter_rejections _
      (Or.inr (Or.inr (Or.inr (Or.inl (by decide)))))

/-- C10 (implicit): the bracket rule `msg.startswith("[") and "]" in msg`
(chat_bridge.py line 544) drops EVERY entry whose content begins with `[`
and contains `]`, whether or not it matches the broadcast shape, so an
ordinary player message like `[hello] world` is never bridged. -/
theorem C10_bracket_drop :
    ∀ e : LogEntry,
      List.isPrefixOf "[".data e.contents = true →
      strContains "]".data e.contents = true →
      passesFilters e = false := by
  intro e hpre hin
  simp [passesFilters, hpre, hin]

/-- Witness for C10: the ordinary player message `[hello] world` is
rejected even though it is chat-typed with a plausible sender. -/
theorem C10_bracket_drop_witness :
    passesFilters
        { timestamp := some 0, source := "Alice".data,
          contents := "[hello] world".data, type := "chat".data } = false :=
  C10_bracket_drop _ (by decide) (by decide)

/-- The recognized in-band command words (chat_bridge.py line 571). -/
def validCommands : List (List Char) :=
  ["!online".data, "!help".data, "!item".data]

/-- The interception test (chat_bridge.py lines 573-575):
`msg.startswith("!") and msg.split(" ")[0].lower() in valid_commands`.
`msg.split(" ")[0]` is the run of characters before the first space. -/
def isBridgeCommand (msg : List Char) : Bool :=
  List.isPrefixOf "!".data msg &&
  decide (toLowerL (msg.takeWhile fun c => c != ' ') ∈ validCommands)

/-- The command-interception pass over one endpoint's accepted messages
(chat_bridge.py lines 570-584): returns (messages forwarded as ordinary
chat, messages diverted to `handle_minecraft_command`), preserving order as
the source loop does. -/
def interceptPass (messages : List (List Char × List Char)) :
    List (List Char × List Char) × List (List Char × List Char) :=
  (messages.filter fun um => !(isBridgeCommand um.2),
   messages.filter fun um => isBridgeCommand um.2)

/-- C9: a candidate message whose content starts with `!` and whose first
word (lowercased) is a recognized command word is removed from the
broadcast stream and handed to the command handler; a message starting with
`!` whose first word is not recognized stays in the broadcast stream as
ordinary chat. -/
theorem C9_command_intercept :
    ∀ (messages : List (List Char × List Char)) (u m : List Char),
      (u, m) ∈ messages →
      (List.isPrefixOf "!".data m = true →
        toLowerL (m.takeWhile fun c => c != ' ') ∈ validCommands →
        (u, m) ∉ (interceptPass messages).1 ∧ (u, m) ∈ (interceptPass messages).2) ∧
      (List.isPrefixOf "!".data m = true →
        toLowerL (m.takeWhile fun c => c != ' ') ∉ validCommands →
        (u, m) ∈ (interceptPass messages).1) := by
  intro messages u m hmem
  constructor
  · intro hpre hword
    have hcmd : isBridgeCommand m = true := by
      simp [isBridgeCommand, hpre, hword]
    constructor
    · intro hforward
      have := (List.mem_filter.mp hforward).2
      simp [hcmd] at this
    · exact List.mem_filter.mpr ⟨hmem, hcmd⟩
  · intro _ hword
    have hcmd : isBridgeCommand m = false := by
      simp [isBridgeCommand, hword]
    exact List.mem_filter.mpr ⟨hmem, by simp [hcmd]⟩

/-- Witness for C9: in a two-message batch, `!online` is diverted to the
command handler and dropped from the broadcast stream, while `!dance`
(command-shaped but unrecognized) is forwarded as ordinary chat. -/
theorem C9_command_intercept_witness :
    (("A".data, "!online".data) ∉
      (interceptPass [("A".data, "!online".data), ("B".data, "!dance".data)]).1 ∧
     ("A".data, "!online".data) ∈
      (interceptPass [("A".data, "!online".data), ("B".data, "!dance".data)]).2) ∧
    ("B".data, "!dance".data) ∈
      (interceptPass [("A".data, "!online".data), ("B".data, "!dance".data)]).1 := by
  constructor
  · exact (C9_command_intercept
      [("A".data, "!online".data), ("B".data, "!dance".data)]
      "A".data "!online".data (by decide)).1 (by decide) (by decide)
  · exact (C9_command_intercept
      [("A".data, "!online".data), ("B".data, "!dance".data)]
      "B".data "!dance".data (by decide)).2 (by decide) (by decide)

/-- The Minecraft-flavoured outgoing command (chat_bridge.py line 625):
`tellraw @a ["",{"text":"[SRC] ", "color": "COL"}, { "text": "<USER> ",
"color": "white" }, { "text": "MSG", "color": "white" }]`. -/
def mcTellraw (safeSource color safeUser safeMsg : List Char) : List Char :=
  "tellraw @a [\"\",\x7b\"text\":\"[".data ++ safeSource ++
  "] \", \"color\": \"".data ++ color ++
  "\"\x7d, \x7b \"text\": \"<".data ++ safeUser ++
  "> \", \"color\": \"white\" \x7d, \x7b \"text\": \"".data ++ safeMsg ++
  "\", \"color\": \"white\" \x7d]".data

/-- The generic (non-Minecraft) outgoing command (chat_bridge.py line 627):
`tellraw @a "[SRC] <USER> MSG"`. -/
def plainTellraw (safeSource safeUser safeMsg : List Char) : List Char :=
  "tellraw @a \"[".data ++ safeSource ++ "] <".data ++ safeUser ++
  "> ".data ++ safeMsg ++ "\"".data

/-- The per-group dispatch pass for one source endpoint's accepted messages
(chat_bridge.py lines 613-629): for each message and each group member
other than the source that is present in the instance registry, build one
sanitized command in the member's syntax variant.  Returns the list of
(target, command) pairs spawned as send tasks. -/
def dispatchPass (instanceNames : List String) (sourceName : String)
    (registered : String → Bool) (isMc : String → Bool)
    (displayName color : List Char)
    (messages : List (List Char × List Char)) : List (String × List Char) :=
  messages.flatMap fun um =>
    instanceNames.filterMap fun targetName =>
      if targetName = sourceName then none
      else if registered targetName then
        some (targetName,
          if isMc targetName then
            mcTellraw (sanitize_for_minecraft displayName) color
              (sanitize_for_minecraft um.1) (sanitize_for_minecraft um.2)
          else
            plainTellraw (sanitize_for_minecraft displayName)
              (sanitize_for_minecraft um.1) (sanitize_for_minecraft um.2))
      else none

/-- C8: every outgoing command built by a group's dispatch pass targets a
member endpoint different from the source; in particular a message from
endpoint A in a 3-member group never produces a command targeting A. -/
theorem C8_fanout_excludes_source :
    ∀ (instanceNames : List String) (sourceName : String)
      (registered isMc : String → Bool) (displayName color : List Char)
      (messages : List (List Char × List Char)) (target : String) (cmd : List Char),
      (target, cmd) ∈ dispatchPass instanceNames sourceName registered isMc
          displayName color messages →
      target ∈ instanceNames ∧ target ≠ sourceName := by
  intro names src reg mc dn col msgs t c hmem
  simp only [dispatchPass, List.mem_flatMap] at hmem
  obtain ⟨um, _, hmem₂⟩ := hmem
  simp only [List.mem_filterMap] at hmem₂
  obtain ⟨tn, htn, heq⟩ := hmem₂
  by_cases h₁ : tn = src
  · rw [if_pos h₁] at heq
    cases heq
  · rw [if_neg h₁] at heq
    by_cases h₂ : reg tn = true
    · rw [if_pos h₂] at heq
      injection heq with hpair
      injection hpair with ht _
      subst ht
      exact ⟨htn, h₁⟩
    · have h₂f : ¬ (reg tn = true) := h₂
      rw [if_neg h₂f] at heq
      cases heq

/-- Witness for C8: with group members A, B, C and source A, the dispatch
pass produces a command for B, and the theorem yields that B is a member
distinct from the source A. -/
theorem C8_fanout_excludes_source_witness :
    (("B" : String),
      mcTellraw (sanitize_for_minecraft "Main".data) "aqua".data
        (sanitize_for_minecraft "Alice".data) (sanitize_for_minecraft "hello".data))
      ∈ dispatchPass ["A", "B", "C"] "A" (fun _ => true) (fun _ => true)
          "Main".data "aqua".data [("Alice".data, "hello".data)] ∧
    ("B" : String) ∈ ["A", "B", "C"] ∧ ("B" : String) ≠ "A" := by
  have hmem : (("B" : String),
      mcTellraw (sanitize_for_minecraft "Main".data) "aqua".data
        (sanitize_for_minecraft "Alice".data) (sanitize_for_minecraft "hello".data))
      ∈ dispatchPass ["A", "B", "C"] "A" (fun _ => true) (fun _ => true)
          "Main".data "aqua".data [("Alice".data, "hello".data)] := by
    decide
  exact ⟨hmem, C8_fanout_excludes_source _ _ _ _ _ _ _ _ _ hmem⟩
